import Mathlib

/-!
Verification development for the `far` find-and-replace tool (`far.py`).

The embedding models, faithfully to the source:
* `splitLines`            — Python `f.readlines()`: split text into lines, each keeping
                            its trailing `'\n'` terminator (a final unterminated line is kept as is);
* `replaceAll`            — the external regex engine's `pattern.sub(replacement, s)` for a
                            literal pattern: global, leftmost, non-overlapping substitution;
* `Match`, `findMatchesAux`, `_find_matches` — the Line Matcher;
* `_perform_replacement`, `perform_replacement` — the Replacement Applier over an explicit
                            file-system state (association list from path to file state);
* `Entry`, `walk`, `_collect_files_from_dir`, `collect_files` — the File Collector over an
                            explicit directory tree (`glob("**/*")` enumerates every
                            descendant; `is_file()` keeps regular files);
* `_review_loop`, `_review_match`, `_review_matches`, `review_matches` — the Review
                            Controller, with user input modelled as a list of command
                            strings (an exhausted list models a prompt that blocks forever);
* `main`                  — the pipeline wiring of `main`, including the
                            `assert not (interactive and preview)` usage check.

File contents are `List Char`; paths are `List String` (the `parts` of a `pathlib` path).
-/

namespace Far

/-- Match record from `far.py`: one line-level change candidate, with the zero-based
line number, the original line (terminator included) and the substituted line. -/
structure Match where
  line_no : Nat
  original_row : List Char
  updated_row : List Char
deriving DecidableEq, Repr

/-- Python `readlines`: cut the text after every newline character; every piece keeps
its trailing newline, and a final piece without a newline is kept unterminated. -/
def splitLines : List Char → List (List Char)
  | [] => []
  | c :: cs =>
    if c = '\n' then ['\n'] :: splitLines cs
    else
      match splitLines cs with
      | [] => [[c]]
      | l :: ls => (c :: l) :: ls

/-- Test whether `pat` occurs at the very beginning of `s` (a literal match at the head). -/
def litMatchHead : List Char → List Char → Bool
  | [], _ => true
  | _ :: _, [] => false
  | p :: ps, c :: cs => p = c && litMatchHead ps cs

/-- Scanning loop of the literal substitution engine. The first argument counts
characters still to be skipped because they belong to an occurrence that was just
replaced; at `0` the loop looks for the next occurrence of `pat`. -/
def subLoop (pat repl : List Char) : Nat → List Char → List Char
  | _ + 1, [] => []
  | n + 1, _ :: cs => subLoop pat repl n cs
  | 0, [] => []
  | 0, c :: cs =>
    if litMatchHead pat (c :: cs) && !pat.isEmpty then
      repl ++ subLoop pat repl (pat.length - 1) cs
    else
      c :: subLoop pat repl 0 cs

/-- Model of the external regex engine's `pattern.sub(replacement, s)` for a literal
pattern `pat`: replace every leftmost non-overlapping occurrence of `pat` in `s`
by `repl`.  An empty pattern performs no replacement in this model. -/
def replaceAll (pat repl s : List Char) : List Char :=
  subLoop pat repl 0 s

/-- Loop body of `_find_matches` from `far.py`: for each row (at zero-based index `i`),
apply the per-line substitution `subst`; emit a `Match` exactly when it changed the row. -/
def findMatchesAux (subst : List Char → List Char) : Nat → List (List Char) → List Match
  | _, [] => []
  | i, row :: rest =>
    let u := subst row
    if u ≠ row then ⟨i, row, u⟩ :: findMatchesAux subst (i + 1) rest
    else findMatchesAux subst (i + 1) rest

/-- Write-back loop of `_perform_replacement` from `far.py`: for each match,
`contents[match.line_no] = match.updated_row`.  (In the pipeline every index is in
range; `List.set` is the faithful in-range semantics of the Python assignment.) -/
def applyMatches (ms : List Match) (contents : List (List Char)) : List (List Char) :=
  ms.foldl (fun cs m => cs.set m.line_no m.updated_row) contents

/-- State of one file on disk: its text content, whether opening it for writing
succeeds (`r+` mode), and whether its bytes decode as text (`readlines` succeeds). -/
structure FileSt where
  content : List Char
  writable : Bool
  decodable : Bool
deriving DecidableEq, Repr

/-- Paths are the `parts` sequence of a `pathlib` path. -/
abbrev Path := List String

/-- File-system state: association list from path to file state (first match wins). -/
abbrev FS := List (Path × FileSt)

/-- Look a path up in the file-system state. -/
def lookupFS : FS → Path → Option FileSt
  | [], _ => none
  | (q, st) :: rest, p => if q = p then some st else lookupFS rest p

/-- Replace the state stored for a path (no-op when the path is absent). -/
def updateFS : FS → Path → FileSt → FS
  | [], _, _ => []
  | (q, st) :: rest, p, st' =>
    if q = p then (q, st') :: rest else (q, st) :: updateFS rest p st'

/-- Body of `_find_matches` from `far.py`.  The result pairs the match list with the
warning messages the function emits for this file: on an undecodable file the
`except UnicodeDecodeError` handler just returns `[]`, emitting nothing. -/
def _find_matches (subst : List Char → List Char) (st : FileSt) :
    List Match × List String :=
  if st.decodable then (findMatchesAux subst 0 (splitLines st.content), [])
  else ([], [])

/-- Body of `find_matches` from `far.py`: run the matcher on every collected file and
keep only the files with a non-empty match list (`if matches:`).  Files missing from
the state are skipped (collected files exist).  The per-line substitution of the
compiled pattern is passed as `subst`. -/
def find_matches (fs : FS) (files : List Path) (subst : List Char → List Char) :
    List (Path × List Match) :=
  files.filterMap fun p =>
    match lookupFS fs p with
    | none => none
    | some st =>
      let ms := (_find_matches subst st).1
      if ms.isEmpty then none else some (p, ms)

/-- Body of `_perform_replacement` from `far.py` for one file: open for
read-modify-write (fails when the file is not writable), read the lines, overwrite
the matched lines, write everything back and truncate.  The written content is the
concatenation of the updated line list. -/
def _perform_replacement (st : FileSt) (ms : List Match) : Except Unit FileSt :=
  if st.writable then
    .ok { st with content := (applyMatches ms (splitLines st.content)).flatten }
  else .error ()

/-- Body of `perform_replacement` from `far.py`: apply each file's accepted matches in
order.  The result is the new file-system state, the list of files that were opened
for writing (every entry of the replacement map that could be opened — including
entries with an empty match list), and, when some file could not be opened, the path
whose `IOError` escaped: the Python loop has no handler, so the first failure stops
the loop and the exception propagates to the caller. -/
def perform_replacement (fs : FS) : List (Path × List Match) → FS × List Path × Option Path
  | [] => (fs, [], none)
  | (p, ms) :: rest =>
    match lookupFS fs p with
    | none => (fs, [], some p)
    | some st =>
      match _perform_replacement st ms with
      | .error _ => (fs, [], some p)
      | .ok st' =>
        let r := perform_replacement (updateFS fs p st') rest
        (r.1, p :: r.2.1, r.2.2)

mutual
/-- Directory tree: a node is a regular file or a directory with named children
(`EntryList` is the children list, spelled out so the tree walk is structurally
recursive and computes). -/
inductive Entry where
  | file : Entry
  | dir : EntryList → Entry
/-- Children list of a directory node: name and subtree of each child. -/
inductive EntryList where
  | nil : EntryList
  | cons : String → Entry → EntryList → EntryList
end

/-- Python `Path.is_file()` on a tree node. -/
def isFileEntry : Entry → Bool
  | .file => true
  | .dir _ => false

mutual
/-- Python `directory.glob("**/*")`: every descendant of the node, at any depth, as
its path parts relative to the node, paired with whether it is a regular file. -/
def walk : Entry → List (List String × Bool)
  | .file => []
  | .dir children => walkChildren children
/-- Enumerate a children list: each child itself, then its descendants under the
child's name. -/
def walkChildren : EntryList → List (List String × Bool)
  | .nil => []
  | .cons n e rest =>
    ([n], isFileEntry e) :: ((walk e).map fun pb => (n :: pb.1, pb.2)) ++ walkChildren rest
end

/-- Hidden-component test of `_collect_files_from_dir` in `far.py`:
`p[0] == "." and p[1] != "."`.  (A component consisting of the single character `.`
would make the Python expression raise `IndexError`, but `glob` never produces such a
component; the model returns `false` there.) -/
def hiddenCode (c : String) : Bool :=
  match c.data with
  | '.' :: c2 :: _ => c2 ≠ '.'
  | _ => false

/-- Hidden-component test in the words of the specification: the component starts
with `.` and is not exactly `.` itself. -/
def hiddenSpec (c : String) : Bool :=
  match c.data with
  | '.' :: [] => false
  | '.' :: _ :: _ => true
  | _ => false

/-- Body of `_collect_files_from_dir` from `far.py`: enumerate every descendant with
`glob("**/*")`, keep regular files, and drop any path one of whose components (the
root directory's own parts included, since `file.parts` is the absolute-or-as-given
full parts tuple) satisfies the code's hidden test. -/
def _collect_files_from_dir (rootParts : List String) (t : Entry) : List (List String) :=
  ((walk t).filter fun pb => pb.2 && !((rootParts ++ pb.1).any hiddenCode)).map (·.1)

/-- Body of `collect_files` from `far.py`: when the path is a directory
(`asDir = some tree`) walk it; otherwise return the one-element list holding the
path itself, with no filtering at all. -/
def collect_files (pathParts : List String) (asDir : Option Entry) : List (List String) :=
  match asDir with
  | some t => _collect_files_from_dir pathParts t
  | none => [pathParts]

/-- Python `str.lower()` for the command alphabet: lower-case every character. -/
def strLower (s : String) : String := ⟨s.data.map Char.toLower⟩

/-- Decision loop of `_review_match` from `far.py`: read commands until one is
recognized; the comparison is on `cmd.lower()`.  Empty input or `y` accepts, `n`
rejects, anything else re-prompts.  `none` models an exhausted input list — the real
prompt would block forever. -/
def _review_loop : List String → Option (Bool × List String)
  | [] => none
  | c :: rest =>
    let l := strLower c
    if l = "" || l = "y" then some (true, rest)
    else if l = "n" then some (false, rest)
    else _review_loop rest

/-- Body of `_review_match` from `far.py`: in preview mode the decision is `False`
before the loop is ever entered (no input is consumed); otherwise run the loop. -/
def _review_match (preview_only : Bool) (stream : List String) :
    Option (Bool × List String) :=
  if preview_only then some (false, stream) else _review_loop stream

/-- Body of `_review_matches` from `far.py`: review each match of one file in order,
keeping the accepted ones in their original relative order. -/
def _review_matches (preview_only : Bool) :
    List Match → List String → Option (List Match × List String)
  | [], s => some ([], s)
  | m :: ms, s =>
    match _review_match preview_only s with
    | none => none
    | some (true, s') =>
      match _review_matches preview_only ms s' with
      | none => none
      | some (acc, s'') => some (m :: acc, s'')
    | some (false, s') => _review_matches preview_only ms s'

/-- Body of `review_matches` from `far.py`: review every file's matches; note that the
file keeps its key in the result even when every one of its matches was rejected
(`all_replacements[file] = replacements` runs unconditionally). -/
def review_matches (preview_only : Bool) :
    List (Path × List Match) → List String → Option (List (Path × List Match) × List String)
  | [], s => some ([], s)
  | (p, ms) :: rest, s =>
    match _review_matches preview_only ms s with
    | none => none
    | some (acc, s') =>
      match review_matches preview_only rest s' with
      | none => none
      | some (accRest, s'') => some ((p, acc) :: accRest, s'')

/-- Decision loop in the words of claim C7: empty input or `y` accepts, `n` rejects,
and any other input causes a re-prompt. -/
def reviewDecisionSpec : List String → Option (Bool × List String)
  | [] => none
  | c :: rest =>
    if c = "" || c = "y" then some (true, rest)
    else if c = "n" then some (false, rest)
    else reviewDecisionSpec rest

/-- Outcome of one run of `main`. -/
inductive MainOutcome where
  /-- The `assert not (interactive and preview)` at the top of `main` fired. -/
  | usageError : MainOutcome
  /-- The interactive prompt is waiting on input that never comes. -/
  | blocked : MainOutcome
  /-- Run finished: final file-system state, the replacement map that was handed to
  the write phase (or built by review in preview mode), the files opened for
  writing, and the path of an unhandled write-phase `IOError`, if any. -/
  | ok : FS → List (Path × List Match) → List Path → Option Path → MainOutcome
deriving DecidableEq

/-- Body of `main` from `far.py`: usage check first, then collect-provided files are
matched, reviewed when `interactive` or `preview` is set, and the result is written
back unless `preview` is set. -/
def main (interactive preview : Bool) (fs : FS) (files : List Path)
    (subst : List Char → List Char) (stream : List String) : MainOutcome :=
  if interactive && preview then .usageError
  else
    let found := find_matches fs files subst
    let rev :=
      if interactive || preview then review_matches preview found stream
      else some (found, stream)
    match rev with
    | none => .blocked
    | some (reps, _) =>
      if !preview then
        let r := perform_replacement fs reps
        .ok r.1 reps r.2.1 r.2.2
      else .ok fs reps [] none

/-! ### Lemmas about lines and match application -/

/-- Splitting produces no lines exactly for empty text. -/
theorem splitLines_eq_nil_iff : ∀ s : List Char, splitLines s = [] ↔ s = []
  | [] => by simp [splitLines]
  | c :: cs => by
    simp only [splitLines]
    split
    · simp
    · cases h : splitLines cs <;> simp

/-- Concatenating the lines of a text gives the text back. -/
theorem flatten_splitLines : ∀ s : List Char, (splitLines s).flatten = s
  | [] => rfl
  | c :: cs => by
    have ih := flatten_splitLines cs
    simp only [splitLines]
    split
    · simp_all
    · cases h : splitLines cs with
      | nil =>
        have : cs = [] := (splitLines_eq_nil_iff cs).mp h
        simp [this]
      | cons l ls => rw [h] at ih; simp_all

/-- Setting the element right after a length-`pre` prefix. -/
theorem set_append_len {α : Type _} (pre : List α) (a u : α) (post : List α) :
    (pre ++ a :: post).set pre.length u = pre ++ u :: post := by
  induction pre with
  | nil => rfl
  | cons x xs ih => simp [List.set, ih]

theorem applyMatches_nil (cs : List (List Char)) : applyMatches [] cs = cs := rfl

theorem applyMatches_cons (m : Match) (ms : List Match) (cs : List (List Char)) :
    applyMatches (m :: ms) cs = applyMatches ms (cs.set m.line_no m.updated_row) := rfl

/-- Applying every match the matcher found amounts to substituting every line. -/
theorem applyMatches_findMatchesAux (subst : List Char → List Char) :
    ∀ (rest pre : List (List Char)),
      applyMatches (findMatchesAux subst pre.length rest) (pre ++ rest)
        = pre ++ rest.map subst
  | [], pre => by simp [findMatchesAux, applyMatches_nil]
  | row :: rest, pre => by
    by_cases h : subst row = row
    · have heq : findMatchesAux subst pre.length (row :: rest)
          = findMatchesAux subst (pre.length + 1) rest := by
        simp [findMatchesAux, h]
      have hlen : pre.length + 1 = (pre ++ [row]).length := by simp
      rw [heq, hlen]
      have ih := applyMatches_findMatchesAux subst rest (pre ++ [row])
      simp only [List.append_assoc, List.singleton_append] at ih
      rw [ih]
      simp [h]
    · have heq : findMatchesAux subst pre.length (row :: rest)
          = ⟨pre.length, row, subst row⟩ :: findMatchesAux subst (pre.length + 1) rest := by
        simp [findMatchesAux, h]
      rw [heq, applyMatches_cons]
      simp only [set_append_len]
      have hlen : pre.length + 1 = (pre ++ [subst row]).length := by simp
      rw [hlen]
      have ih := applyMatches_findMatchesAux subst rest (pre ++ [subst row])
      simp only [List.append_assoc, List.singleton_append] at ih
      rw [ih]
      simp

/-- Match application preserves the number of lines. -/
theorem applyMatches_length : ∀ (ms : List Match) (cs : List (List Char)),
    (applyMatches ms cs).length = cs.length
  | [], _ => rfl
  | m :: ms, cs => by
    rw [applyMatches_cons, applyMatches_length ms]
    simp

/-- Lines whose index no match carries are left untouched. -/
theorem applyMatches_getElem?_not_mem : ∀ (ms : List Match) (cs : List (List Char)) (i : Nat),
    (∀ m ∈ ms, m.line_no ≠ i) → (applyMatches ms cs)[i]? = cs[i]?
  | [], _, _, _ => rfl
  | m :: ms, cs, i, h => by
    rw [applyMatches_cons, applyMatches_getElem?_not_mem ms _ i (fun m hm => h m (by simp [hm]))]
    exact List.getElem?_set_ne (h m (by simp))

/-- A line whose index a match carries receives that match's updated text. -/
theorem applyMatches_getElem?_mem : ∀ (ms : List Match) (cs : List (List Char)) (m : Match),
    m ∈ ms → (ms.map Match.line_no).Nodup → m.line_no < cs.length →
    (applyMatches ms cs)[m.line_no]? = some m.updated_row
  | [], _, _, hm, _, _ => absurd hm (List.not_mem_nil _)
  | m' :: ms, cs, m, hm, hnd, hlt => by
    rw [applyMatches_cons]
    rcases List.mem_cons.mp hm with heq | htail
    · subst heq
      have hnot : ∀ x ∈ ms, x.line_no ≠ m.line_no := by
        intro x hx
        have := (List.nodup_cons.mp hnd).1
        intro hcontra
        exact this (hcontra ▸ List.mem_map_of_mem Match.line_no hx)
      rw [applyMatches_getElem?_not_mem ms _ _ hnot]
      exact List.getElem?_set_eq_of_lt _ (by simpa using hlt)
    · exact applyMatches_getElem?_mem ms _ m htail (List.nodup_cons.mp hnd).2
        (by simpa using hlt)

/-! ### Lemmas about the literal substitution engine -/

/-- A head match needs at least as many characters as the pattern. -/
theorem litMatchHead_length_le : ∀ {pat s : List Char},
    litMatchHead pat s = true → pat.length ≤ s.length
  | [], _, _ => by simp
  | _ :: _, [], h => by simp [litMatchHead] at h
  | p :: ps, c :: cs, h => by
    simp only [litMatchHead, Bool.and_eq_true] at h
    simpa using litMatchHead_length_le h.2

/-- A head match survives extending the text on the right. -/
theorem litMatchHead_append : ∀ {pat x : List Char} (y : List Char),
    litMatchHead pat x = true → litMatchHead pat (x ++ y) = true
  | [], _, _, _ => rfl
  | _ :: _, [], _, h => by simp [litMatchHead] at h
  | p :: ps, c :: cs, y, h => by
    simp only [litMatchHead, Bool.and_eq_true, List.cons_append] at h ⊢
    exact ⟨h.1, litMatchHead_append y h.2⟩

/-- A newline-free pattern matching at the head of `x ++ '\n' :: b` already matches
at the head of `x`: the occurrence cannot reach across the newline. -/
theorem litMatchHead_append_nl : ∀ {pat x : List Char} {b : List Char}, ('\n' ∉ pat) →
    litMatchHead pat (x ++ '\n' :: b) = true → litMatchHead pat x = true
  | [], _, _, _, _ => rfl
  | p :: ps, [], b, hn, h => by
    exfalso
    simp only [List.nil_append, litMatchHead, Bool.and_eq_true, decide_eq_true_eq] at h
    exact hn (h.1 ▸ List.mem_cons_self _ _)
  | p :: ps, c :: cs, b, hn, h => by
    simp only [List.cons_append, litMatchHead, Bool.and_eq_true] at h ⊢
    exact ⟨h.1, litMatchHead_append_nl (fun hm => hn (List.mem_cons_of_mem _ hm)) h.2⟩

/-- A newline-free non-empty pattern never matches at a newline. -/
theorem litMatchHead_nl {pat : List Char} (hp : pat ≠ []) (hn : '\n' ∉ pat)
    (b : List Char) : litMatchHead pat ('\n' :: b) = false := by
  cases pat with
  | nil => exact absurd rfl hp
  | cons p ps =>
    have hpne : p ≠ '\n' := fun h => hn (h ▸ List.mem_cons_self _ _)
    simp [litMatchHead, hpne]

/-- Skipping counts down through the text. -/
theorem subLoop_skip (pat repl : List Char) : ∀ (n : Nat) (cs : List Char),
    subLoop pat repl n cs = subLoop pat repl 0 (cs.drop n)
  | 0, cs => by rw [List.drop_zero]
  | n + 1, [] => by rw [List.drop_nil]; rfl
  | n + 1, c :: cs => by
    rw [List.drop_succ_cons, ← subLoop_skip pat repl n cs]
    rfl

theorem replaceAll_nil (pat repl : List Char) : replaceAll pat repl [] = [] := rfl

/-- Unfolding of `replaceAll` when the pattern matches at the head. -/
theorem replaceAll_cons_hit {pat : List Char} (repl : List Char) {c : Char}
    {cs : List Char} (hp : pat ≠ []) (hm : litMatchHead pat (c :: cs) = true) :
    replaceAll pat repl (c :: cs)
      = repl ++ replaceAll pat repl (List.drop pat.length (c :: cs)) := by
  have hE : pat.isEmpty = false := by
    cases pat
    · exact absurd rfl hp
    · rfl
  have hcond : (litMatchHead pat (c :: cs) && !pat.isEmpty) = true := by
    rw [hm, hE]; rfl
  show subLoop pat repl 0 (c :: cs) = _
  rw [show subLoop pat repl 0 (c :: cs)
      = if litMatchHead pat (c :: cs) && !pat.isEmpty then
          repl ++ subLoop pat repl (pat.length - 1) cs
        else c :: subLoop pat repl 0 cs from rfl]
  rw [if_pos hcond, subLoop_skip pat repl (pat.length - 1) cs]
  cases pat with
  | nil => exact absurd rfl hp
  | cons p ps =>
    rw [show (p :: ps).length - 1 = ps.length from rfl, List.length_cons,
      List.drop_succ_cons]
    rfl

/-- Unfolding of `replaceAll` when the pattern does not match at the head. -/
theorem replaceAll_cons_miss {pat : List Char} (repl : List Char) {c : Char}
    {cs : List Char} (hm : litMatchHead pat (c :: cs) = false) :
    replaceAll pat repl (c :: cs) = c :: replaceAll pat repl cs := by
  show subLoop pat repl 0 (c :: cs) = _
  rw [show subLoop pat repl 0 (c :: cs)
      = if litMatchHead pat (c :: cs) && !pat.isEmpty then
          repl ++ subLoop pat repl (pat.length - 1) cs
        else c :: subLoop pat repl 0 cs from rfl]
  rw [hm]
  rfl

/-- Substituting with a newline-free pattern treats the two sides of a newline
independently: no occurrence spans the line boundary. -/
theorem replaceAll_append_nl_bounded {pat : List Char} (repl : List Char) (hp : pat ≠ [])
    (hn : '\n' ∉ pat) : ∀ (n : Nat) (a b : List Char), a.length ≤ n →
    replaceAll pat repl (a ++ '\n' :: b)
      = replaceAll pat repl a ++ '\n' :: replaceAll pat repl b := by
  intro n
  induction n with
  | zero =>
    intro a b hle
    have ha : a = [] := List.eq_nil_of_length_eq_zero (Nat.le_zero.mp hle)
    subst ha
    rw [List.nil_append, replaceAll_nil,
      replaceAll_cons_miss repl (litMatchHead_nl hp hn b), List.nil_append]
  | succ n ih =>
    intro a b hle
    match a with
    | [] =>
      rw [List.nil_append, replaceAll_nil,
        replaceAll_cons_miss repl (litMatchHead_nl hp hn b), List.nil_append]
    | c :: a' =>
      have hassoc : (c :: a') ++ '\n' :: b = c :: (a' ++ '\n' :: b) := rfl
      by_cases hhit : litMatchHead pat (c :: (a' ++ '\n' :: b)) = true
      · have hx : litMatchHead pat (c :: a') = true :=
          litMatchHead_append_nl hn (by rw [← List.cons_append] at hhit; exact hhit)
        have hlen : pat.length ≤ (c :: a').length := litMatchHead_length_le hx
        rw [hassoc, replaceAll_cons_hit repl hp hhit, replaceAll_cons_hit repl hp hx]
        rw [show (c :: (a' ++ '\n' :: b)) = (c :: a') ++ '\n' :: b from rfl,
          List.drop_append_of_le_length hlen]
        rw [ih (List.drop pat.length (c :: a')) b
          (by
            have h1 : 1 ≤ pat.length := List.length_pos.mpr hp
            have h2 : (List.drop pat.length (c :: a')).length
                = (c :: a').length - pat.length := List.length_drop _ _
            simp only [List.length_cons] at h2 hle ⊢
            omega)]
        rw [List.append_assoc]
      · have hhit' : litMatchHead pat (c :: (a' ++ '\n' :: b)) = false :=
          Bool.not_eq_true _ ▸ eq_false_of_ne_true hhit
        have hx : litMatchHead pat (c :: a') = false := by
          cases hcx : litMatchHead pat (c :: a') with
          | false => rfl
          | true =>
            exact absurd (by
              have := litMatchHead_append ('\n' :: b) hcx
              rwa [List.cons_append] at this) hhit
        rw [hassoc, replaceAll_cons_miss repl hhit', replaceAll_cons_miss repl hx]
        rw [ih a' b (Nat.le_of_succ_le_succ (by simpa using hle))]
        rfl

/-- Substitution with a newline-free pattern splits at a newline. -/
theorem replaceAll_append_nl {pat : List Char} (repl : List Char) (hp : pat ≠ [])
    (hn : '\n' ∉ pat) (a b : List Char) :
    replaceAll pat repl (a ++ '\n' :: b)
      = replaceAll pat repl a ++ '\n' :: replaceAll pat repl b :=
  replaceAll_append_nl_bounded repl hp hn a.length a b le_rfl

/-! ### Composition of per-line substitution and whole-text substitution -/

/-- A non-empty newline-free text is a single unterminated line. -/
theorem splitLines_no_nl {s : List Char} (hne : s ≠ []) (hn : '\n' ∉ s) :
    splitLines s = [s] := by
  induction s with
  | nil => exact absurd rfl hne
  | cons c cs ih =>
    have hc : ¬(c = '\n') := fun h => hn (h ▸ List.mem_cons_self _ _)
    simp only [splitLines, if_neg hc]
    by_cases hcs : cs = []
    · subst hcs; rfl
    · rw [ih hcs (fun hm => hn (List.mem_cons_of_mem _ hm))]

/-- Splitting at the first newline: the first line is everything up to and
including that newline. -/
theorem splitLines_append_nl : ∀ {a : List Char} (b : List Char), '\n' ∉ a →
    splitLines (a ++ '\n' :: b) = (a ++ ['\n']) :: splitLines b := by
  intro a
  induction a with
  | nil =>
    intro b _
    simp [splitLines]
  | cons c a' ih =>
    intro b hn
    have hc : ¬(c = '\n') := fun h => hn (h ▸ List.mem_cons_self _ _)
    simp only [List.cons_append, splitLines, if_neg hc, List.append_eq]
    rw [ih b (fun hm => hn (List.mem_cons_of_mem _ hm))]

/-- Cut a text containing a newline at its first newline. -/
theorem exists_first_nl : ∀ {s : List Char}, '\n' ∈ s →
    ∃ a b, s = a ++ '\n' :: b ∧ '\n' ∉ a := by
  intro s
  induction s with
  | nil => intro h; simp at h
  | cons c cs ih =>
    intro h
    by_cases hc : c = '\n'
    · exact ⟨[], cs, by simp [hc], by simp⟩
    · have hmem : '\n' ∈ cs := by
        rcases List.mem_cons.mp h with h1 | h2
        · exact absurd h1.symm hc
        · exact h2
      obtain ⟨a, b, heq, hna⟩ := ih hmem
      refine ⟨c :: a, b, by rw [heq]; rfl, ?_⟩
      intro hm
      rcases List.mem_cons.mp hm with h1 | h2
      · exact hc h1.symm
      · exact hna h2

/-- Substituting every line and re-joining, with a newline-free pattern, gives the
substitution of the whole text (bounded recursion on the text length). -/
theorem flatten_map_replaceAll_bounded {pat repl : List Char} (hp : pat ≠ [])
    (hn : '\n' ∉ pat) : ∀ (n : Nat) (s : List Char), s.length ≤ n →
    ((splitLines s).map (replaceAll pat repl)).flatten = replaceAll pat repl s := by
  intro n
  induction n with
  | zero =>
    intro s hle
    have hs : s = [] := List.eq_nil_of_length_eq_zero (Nat.le_zero.mp hle)
    subst hs; rfl
  | succ n ih =>
    intro s hle
    by_cases hmem : '\n' ∈ s
    · obtain ⟨a, b, heq, hna⟩ := exists_first_nl hmem
      subst heq
      rw [splitLines_append_nl b hna, List.map_cons, List.flatten_cons]
      rw [ih b (by simp only [List.length_append, List.length_cons] at hle ⊢; omega)]
      rw [replaceAll_append_nl repl hp hn a b]
      have h1 : replaceAll pat repl (a ++ ['\n']) = replaceAll pat repl a ++ ['\n'] := by
        have h2 := replaceAll_append_nl repl hp hn a []
        rw [replaceAll_nil] at h2
        exact h2
      rw [h1, List.append_assoc]
      rfl
    · by_cases hne : s = []
      · subst hne; rfl
      · rw [splitLines_no_nl hne hmem]
        simp

/-- Substituting every line and re-joining, with a newline-free pattern, gives the
substitution of the whole text. -/
theorem flatten_map_replaceAll {pat repl : List Char} (hp : pat ≠ [])
    (hn : '\n' ∉ pat) (s : List Char) :
    ((splitLines s).map (replaceAll pat repl)).flatten = replaceAll pat repl s :=
  flatten_map_replaceAll_bounded hp hn s.length s le_rfl

/-! ### Lemmas about the Replacement Applier -/

/-- Writing back the state a path already holds changes nothing. -/
theorem updateFS_self : ∀ (fs : FS) (p : Path) (st : FileSt),
    lookupFS fs p = some st → updateFS fs p st = fs
  | [], _, _, h => by simp [lookupFS] at h
  | (q, st') :: rest, p, st, h => by
    by_cases hq : q = p
    · have : st' = st := by simpa [lookupFS, hq] using h
      simp [updateFS, hq, this]
    · have h' : lookupFS rest p = some st := by simpa [lookupFS, hq] using h
      simp [updateFS, hq, updateFS_self rest p st h']

theorem perform_replacement_nil (fs : FS) : perform_replacement fs [] = (fs, [], none) :=
  rfl

/-- Unfolding of the applier when the file is present and writable. -/
theorem perform_replacement_cons_ok {fs : FS} {p : Path} {st : FileSt}
    (ms : List Match) (rest : List (Path × List Match))
    (hl : lookupFS fs p = some st) (hw : st.writable = true) :
    perform_replacement fs ((p, ms) :: rest)
      = ((perform_replacement (updateFS fs p
            { st with content := (applyMatches ms (splitLines st.content)).flatten }) rest).1,
         p :: (perform_replacement (updateFS fs p
            { st with content := (applyMatches ms (splitLines st.content)).flatten }) rest).2.1,
         (perform_replacement (updateFS fs p
            { st with content := (applyMatches ms (splitLines st.content)).flatten }) rest).2.2) := by
  simp [perform_replacement, hl, _perform_replacement, hw]

/-- Unfolding of the applier when the file cannot be opened for writing: the write
phase stops there and the path of the failed file escapes as the error. -/
theorem perform_replacement_cons_ro {fs : FS} {p : Path} {st : FileSt}
    (ms : List Match) (rest : List (Path × List Match))
    (hl : lookupFS fs p = some st) (hw : st.writable = false) :
    perform_replacement fs ((p, ms) :: rest) = (fs, [], some p) := by
  simp [perform_replacement, hl, _perform_replacement, hw]

/-- Unfolding of the applier when the file is missing: same abort behaviour. -/
theorem perform_replacement_cons_missing {fs : FS} {p : Path}
    (ms : List Match) (rest : List (Path × List Match)) (hl : lookupFS fs p = none) :
    perform_replacement fs ((p, ms) :: rest) = (fs, [], some p) := by
  simp [perform_replacement, hl]

/-- When a leading slice of the replacement map is applied without error, the
applier processes the slice first and then continues with the remaining entries on
the updated file system, accumulating the opened files in order. -/
theorem perform_replacement_append :
    ∀ (pre : List (Path × List Match)) (fs : FS) (tail : List (Path × List Match)),
    (perform_replacement fs pre).2.2 = none →
    perform_replacement fs (pre ++ tail)
      = ((perform_replacement (perform_replacement fs pre).1 tail).1,
         (perform_replacement fs pre).2.1
           ++ (perform_replacement (perform_replacement fs pre).1 tail).2.1,
         (perform_replacement (perform_replacement fs pre).1 tail).2.2)
  | [], fs, tail, _ => by simp [perform_replacement_nil]
  | (p, ms) :: pre, fs, tail, h => by
    cases hl : lookupFS fs p with
    | none =>
      rw [perform_replacement_cons_missing ms pre hl] at h
      simp at h
    | some st =>
      cases hw : st.writable with
      | false =>
        rw [perform_replacement_cons_ro ms pre hl hw] at h
        simp at h
      | true =>
        rw [perform_replacement_cons_ok ms pre hl hw] at h
        rw [List.cons_append, perform_replacement_cons_ok ms (pre ++ tail) hl hw,
          perform_replacement_append pre _ tail h,
          perform_replacement_cons_ok ms pre hl hw]
        simp

/-! ### Lemmas about the Review Controller -/

/-- In preview mode a single review consumes no input and always rejects. -/
theorem _review_match_preview (s : List String) :
    _review_match true s = some (false, s) := rfl

/-- In preview mode reviewing a file's matches rejects all of them. -/
theorem _review_matches_preview : ∀ (ms : List Match) (s : List String),
    _review_matches true ms s = some ([], s)
  | [], _ => rfl
  | m :: ms, s => by
    simp [_review_matches, _review_match_preview, _review_matches_preview ms s]

/-- In preview mode reviewing the whole match set keeps every file key with an
empty accepted list and consumes no input. -/
theorem review_matches_preview : ∀ (d : List (Path × List Match)) (s : List String),
    review_matches true d s = some (d.map (fun pm => (pm.1, [])), s)
  | [], _ => rfl
  | (p, ms) :: rest, s => by
    simp [review_matches, _review_matches_preview, review_matches_preview rest s]

/-- Whatever decisions interactive review takes, the accepted matches of one file
are a subsequence of its match list: original relative order is preserved. -/
theorem _review_matches_sublist (po : Bool) :
    ∀ (ms : List Match) (s : List String) (acc : List Match) (s' : List String),
    _review_matches po ms s = some (acc, s') → acc.Sublist ms
  | [], s, acc, s', h => by
    simp only [_review_matches, Option.some.injEq, Prod.mk.injEq] at h
    obtain ⟨h1, h2⟩ := h
    rw [← h1]
  | m :: ms, s, acc, s', h => by
    simp only [_review_matches] at h
    cases hr : _review_match po s with
    | none => simp [hr] at h
    | some ds =>
      obtain ⟨d, s1⟩ := ds
      cases d with
      | true =>
        simp only [hr] at h
        cases hrec : _review_matches po ms s1 with
        | none => simp [hrec] at h
        | some accs =>
          obtain ⟨acc1, s2⟩ := accs
          simp only [hrec, Option.some.injEq, Prod.mk.injEq] at h
          rw [← h.1]
          exact List.Sublist.cons₂ m (_review_matches_sublist po ms s1 acc1 s2 hrec)
      | false =>
        simp only [hr] at h
        exact List.Sublist.cons m (_review_matches_sublist po ms s1 acc s' h)

/-! ### Lemmas about the File Collector -/

/-- File collection in the words of claim C4: keep exactly the regular files at any
depth whose full path has no component that starts with `.` and is not `.` itself. -/
def collectFilesSpec (rootParts : List String) (t : Entry) : List (List String) :=
  ((walk t).filter fun pb => pb.2 && !((rootParts ++ pb.1).any hiddenSpec)).map (·.1)

/-- Membership in the collector output, characterised with the code's hidden test:
a path is collected exactly when it is a regular file somewhere below the root and
no component of the full path has `.` as first character with a second character
different from `.`. -/
theorem mem_collect_files_from_dir (rootParts : List String) (t : Entry)
    (p : List String) :
    p ∈ _collect_files_from_dir rootParts t
      ↔ ((p, true) ∈ walk t ∧ ∀ c ∈ rootParts ++ p, hiddenCode c = false) := by
  unfold _collect_files_from_dir
  rw [List.mem_map]
  constructor
  · rintro ⟨⟨q, b⟩, hmem, rfl⟩
    rw [List.mem_filter] at hmem
    obtain ⟨hw, hcond⟩ := hmem
    simp only [Bool.and_eq_true] at hcond
    obtain ⟨hb, hany⟩ := hcond
    have hany2 : ((rootParts ++ q).any hiddenCode) = false := by
      simpa using hany
    subst hb
    refine ⟨hw, fun c hc => ?_⟩
    have := List.any_eq_false.mp hany2 c hc
    simpa using this
  · rintro ⟨hw, hall⟩
    refine ⟨(p, true), List.mem_filter.mpr ⟨hw, ?_⟩, rfl⟩
    simp only [Bool.and_eq_true]
    refine ⟨by trivial, ?_⟩
    have : ((rootParts ++ p).any hiddenCode) = false :=
      List.any_eq_false.mpr (fun c hc => by simp [hall c hc])
    simp [this]

/-- Every match the matcher emits for rows numbered from `i` has a line index
between `i` and `i` plus the number of rows. -/
theorem findMatchesAux_line_no_bounds (subst : List Char → List Char) :
    ∀ (rest : List (List Char)) (i : Nat) (m : Match),
    m ∈ findMatchesAux subst i rest → i ≤ m.line_no ∧ m.line_no < i + rest.length
  | [], i, m, h => by simp [findMatchesAux] at h
  | row :: rest, i, m, h => by
    simp only [findMatchesAux] at h
    by_cases hc : subst row = row
    · rw [if_neg (by simp [hc])] at h
      have hb := findMatchesAux_line_no_bounds subst rest (i + 1) m h
      simp only [List.length_cons]
      omega
    · rw [if_pos (by simp [hc])] at h
      rcases List.mem_cons.mp h with heq | htail
      · subst heq
        simp only [List.length_cons]
        omega
      · have hb := findMatchesAux_line_no_bounds subst rest (i + 1) m htail
        simp only [List.length_cons]
        omega

/-- The matcher emits at most one match per line: the line indices are distinct. -/
theorem findMatchesAux_line_no_nodup (subst : List Char → List Char) :
    ∀ (rest : List (List Char)) (i : Nat),
    ((findMatchesAux subst i rest).map Match.line_no).Nodup
  | [], i => by simp [findMatchesAux]
  | row :: rest, i => by
    by_cases hc : subst row = row
    · simp only [findMatchesAux, if_neg (by simp [hc] : ¬(subst row ≠ row))]
      exact findMatchesAux_line_no_nodup subst rest (i + 1)
    · simp only [findMatchesAux, if_pos (by simp [hc] : subst row ≠ row), List.map_cons]
      rw [List.nodup_cons]
      refine ⟨?_, findMatchesAux_line_no_nodup subst rest (i + 1)⟩
      intro hmem
      obtain ⟨m, hm, hline⟩ := List.mem_map.mp hmem
      have hb := findMatchesAux_line_no_bounds subst rest (i + 1) m hm
      omega

/-! ### Concrete fixtures used by witnesses and counterexamples -/

/-- The literal pattern `foo`. -/
def fooPat : List Char := ['f', 'o', 'o']

/-- The replacement text `baz`. -/
def bazRepl : List Char := ['b', 'a', 'z']

/-- Path of a sample file. -/
def p1 : Path := ["a.txt"]

/-- A writable, decodable one-line file containing `foo`. -/
def st1 : FileSt := ⟨"foo\n".data, true, true⟩

/-- A read-only file with the same content. -/
def stRO : FileSt := ⟨"foo\n".data, false, true⟩

/-- An undecodable (binary) file. -/
def stBin : FileSt := ⟨[], true, false⟩

/-- One-file file system. -/
def fs1 : FS := [(p1, st1)]

/-- Two-file file system whose first file is read-only. -/
def pa : Path := ["ro.txt"]

/-- Path of the second, writable file. -/
def pb : Path := ["rw.txt"]

/-- The two-file system: `ro.txt` cannot be opened for writing, `rw.txt` can. -/
def fs2 : FS := [(pa, stRO), (pb, st1)]

/-- The match the pattern `foo` produces on the line `foo\n`. -/
def m0 : Match := ⟨0, "foo\n".data, "baz\n".data⟩

/-- Directory tree with a `..backup` directory, a `.git` directory and a plain file. -/
def t0 : Entry :=
  .dir (.cons "..backup" (.dir (.cons "a.txt" .file .nil))
       (.cons ".git" (.dir (.cons "config" .file .nil))
       (.cons "a.txt" .file .nil)))

/-! ### The claims -/

/-- C1, counterexample: in an interactive run on one file whose single match the
user rejects, the accepted match list of `a.txt` is empty (`[(p1, [])]`), and yet
`a.txt` is opened for writing (the opened-files list is `[p1]`).  The claim says a
file with zero accepted matches is not opened at all. -/
theorem c1_counterexample :
    main true false fs1 [p1] (replaceAll fooPat bazRepl) ["n"]
        = MainOutcome.ok fs1 [(p1, [])] [p1] none
      ∧ p1 ∈ [p1] := by
  exact ⟨by decide, by decide⟩

/-- C1, amended: a file whose accepted match list is empty is still opened for
writing (it appears in the opened list), but the content written back is
byte-for-byte the original content, so the file-system state is exactly what
applying the remaining entries alone gives. -/
theorem c1_amended_zero_accepted_still_opened_content_unchanged (fs : FS) (p : Path)
    (st : FileSt) (rest : List (Path × List Match)) (hl : lookupFS fs p = some st)
    (hw : st.writable = true) :
    perform_replacement fs ((p, []) :: rest)
      = ((perform_replacement fs rest).1,
         p :: (perform_replacement fs rest).2.1,
         (perform_replacement fs rest).2.2) := by
  rw [perform_replacement_cons_ok [] rest hl hw]
  have hrec : { st with content := (applyMatches [] (splitLines st.content)).flatten }
      = st := by
    rw [applyMatches_nil, flatten_splitLines]
  rw [hrec, updateFS_self fs p st hl]

/-- C1, witness: on the concrete one-file system, the entry with an empty accepted
list leaves the file system unchanged but opens the file. -/
theorem c1_witness : perform_replacement fs1 [(p1, [])] = (fs1, [p1], none) := by
  have h := c1_amended_zero_accepted_still_opened_content_unchanged fs1 p1 st1 []
    (by decide) (by decide)
  simpa [perform_replacement_nil] using h

/-- C2, counterexample: with a read-only first file and a writable second file,
the write phase stops at the first file — nothing is opened, the second file keeps
its one pending match unapplied (its state is untouched), and the `IOError` path
escapes to the caller, so the run does not continue past the failure. -/
theorem c2_counterexample :
    perform_replacement fs2 [(pa, [m0]), (pb, [m0])] = (fs2, [], some pa)
      ∧ lookupFS (perform_replacement fs2 [(pa, [m0]), (pb, [m0])]).1 pb = some st1 := by
  exact ⟨by decide, by decide⟩

/-- C2, amended: when a file of the accepted set cannot be opened for writing, that
file's write is aborted and so is the write of every file after it in iteration
order; the failure is surfaced to the caller as the escaping exception.  Files
processed before the failure keep their applied changes. -/
theorem c2_amended_failure_aborts_that_file_and_rest (fs : FS)
    (pre : List (Path × List Match)) (p : Path) (st : FileSt) (ms : List Match)
    (rest : List (Path × List Match))
    (hok : (perform_replacement fs pre).2.2 = none)
    (hl : lookupFS (perform_replacement fs pre).1 p = some st)
    (hw : st.writable = false) :
    perform_replacement fs (pre ++ (p, ms) :: rest)
      = ((perform_replacement fs pre).1, (perform_replacement fs pre).2.1, some p) := by
  rw [perform_replacement_append pre fs ((p, ms) :: rest) hok,
    perform_replacement_cons_ro ms rest hl hw]
  simp

/-- C2, witness: the writable file before the read-only one is processed, the
read-only file fails, and the entry after it is never applied. -/
theorem c2_witness :
    perform_replacement fs2 [(pb, [m0]), (pa, [m0]), (pb, [])]
      = ((perform_replacement fs2 [(pb, [m0])]).1,
         (perform_replacement fs2 [(pb, [m0])]).2.1, some pa) :=
  c2_amended_failure_aborts_that_file_and_rest fs2 [(pb, [m0])] pa stRO [m0]
    [(pb, [])] (by decide) (by decide) (by decide)

/-- C3: for a (literal) pattern containing no newline — so that no occurrence can
span a line boundary — applying every match the matcher returns for a file yields
exactly the text a single whole-content substitution would produce. -/
theorem c3_all_matches_equal_whole_substitution (pat repl content : List Char)
    (hp : pat ≠ []) (hn : '\n' ∉ pat) :
    (applyMatches (findMatchesAux (replaceAll pat repl) 0 (splitLines content))
        (splitLines content)).flatten
      = replaceAll pat repl content := by
  have h := applyMatches_findMatchesAux (replaceAll pat repl) (splitLines content) []
  simp only [List.nil_append, List.length_nil] at h
  rw [h]
  exact flatten_map_replaceAll hp hn content

/-- C3, witness: the concrete scenario of the specification — `foo` → `baz` over
`foo\nbar\nfoo foo\n` — where the claim instance holds and the whole-content
substitution concretely equals `baz\nbar\nbaz baz\n`. -/
theorem c3_witness :
    (applyMatches
        (findMatchesAux (replaceAll fooPat bazRepl) 0 (splitLines "foo\nbar\nfoo foo\n".data))
        (splitLines "foo\nbar\nfoo foo\n".data)).flatten
        = replaceAll fooPat bazRepl "foo\nbar\nfoo foo\n".data
      ∧ replaceAll fooPat bazRepl "foo\nbar\nfoo foo\n".data = "baz\nbar\nbaz baz\n".data :=
  ⟨c3_all_matches_equal_whole_substitution fooPat bazRepl "foo\nbar\nfoo foo\n".data
      (by decide) (by decide),
   by decide⟩

/-- C4, counterexample: in a tree holding `..backup/a.txt`, `.git/config` and
`a.txt`, the code collects `..backup/a.txt` although its first component starts
with `.` and is not `.` itself, so the claimed description of the filter excludes
it.  (`.git/config` is excluded by both.) -/
theorem c4_counterexample :
    ["..backup", "a.txt"] ∈ _collect_files_from_dir [] t0
      ∧ ["..backup", "a.txt"] ∉ collectFilesSpec [] t0
      ∧ [".git", "config"] ∉ _collect_files_from_dir [] t0
      ∧ ["a.txt"] ∈ _collect_files_from_dir [] t0 := by
  exact ⟨by decide, by decide, by decide, by decide⟩

/-- C4, amended: the collector returns exactly the regular files at any depth under
the root whose full path (root parts included) has no component whose first
character is `.` and whose second character exists and differs from `.` — so
`.git/config` is excluded but `..backup/a.txt` is kept. -/
theorem c4_amended_collect_exactly_nonhidden_files (rootParts : List String)
    (t : Entry) (p : List String) :
    p ∈ _collect_files_from_dir rootParts t
      ↔ ((p, true) ∈ walk t ∧ ∀ c ∈ rootParts ++ p, hiddenCode c = false) :=
  mem_collect_files_from_dir rootParts t p

/-- C5, counterexample: on an undecodable file the matcher returns the empty match
list — but the list of warning events it emits is also empty: no warning-level
event reaches the caller, the skip is entirely silent. -/
theorem c5_counterexample :
    (_find_matches (replaceAll fooPat bazRepl) stBin).1 = []
      ∧ (_find_matches (replaceAll fooPat bazRepl) stBin).2 = [] := by
  exact ⟨rfl, rfl⟩

/-- C5, amended: for every file whose content cannot be decoded, the matcher
catches the decode failure and returns the empty match sequence without crashing,
and emits no warning at all — the file is skipped silently. -/
theorem c5_amended_undecodable_skipped_silently (subst : List Char → List Char)
    (st : FileSt) (h : st.decodable = false) :
    _find_matches subst st = ([], []) := by
  simp [_find_matches, h]

/-- C5, witness: the concrete undecodable file is skipped with no warning. -/
theorem c5_witness : _find_matches (replaceAll fooPat bazRepl) stBin = ([], []) :=
  c5_amended_undecodable_skipped_silently (replaceAll fooPat bazRepl) stBin (by decide)

/-- C6: applying any accepted sub-selection of the matches the matcher found for a
file's lines keeps the number of lines, rewrites exactly the lines at the accepted
matches' indices to their updated text, and leaves every other line byte-for-byte
untouched. -/
theorem c6_apply_changes_exactly_matched_lines (subst : List Char → List Char)
    (lines : List (List Char)) (ms : List Match)
    (hsub : ms.Sublist (findMatchesAux subst 0 lines)) :
    (applyMatches ms lines).length = lines.length
      ∧ (∀ m ∈ ms, (applyMatches ms lines)[m.line_no]? = some m.updated_row)
      ∧ (∀ i : Nat, (∀ m ∈ ms, m.line_no ≠ i) →
          (applyMatches ms lines)[i]? = lines[i]?) := by
  have hnd : (ms.map Match.line_no).Nodup :=
    (findMatchesAux_line_no_nodup subst lines 0).sublist (hsub.map Match.line_no)
  have hrange : ∀ m ∈ ms, m.line_no < lines.length := fun m hm => by
    have hb := findMatchesAux_line_no_bounds subst lines 0 m (hsub.subset hm)
    omega
  refine ⟨applyMatches_length ms lines, ?_, ?_⟩
  · intro m hm
    exact applyMatches_getElem?_mem ms lines m hm hnd (hrange m hm)
  · intro i hi
    exact applyMatches_getElem?_not_mem ms lines i hi

/-- Six one-character lines, used as a concrete file for the C6 witness. -/
def sixLines : List (List Char) :=
  [['a', '\n'], ['b', '\n'], ['c', '\n'], ['d', '\n'], ['e', '\n'], ['f', '\n']]

/-- A substitution that changes every line: put an `X` in front of it. -/
def prependX : List Char → List Char := fun l => 'X' :: l

/-- Accepting the matches of lines 2 and 5 (indices 1 and 4) of the six-line file. -/
def sixMs : List Match :=
  [⟨1, ['b', '\n'], ['X', 'b', '\n']⟩, ⟨4, ['e', '\n'], ['X', 'e', '\n']⟩]

/-- C6, witness: on the six-line file with the matches of lines 2 and 5 accepted,
the line count is kept, line 2 becomes its updated text, and line 1 is untouched. -/
theorem c6_witness :
    (applyMatches sixMs sixLines).length = sixLines.length
      ∧ (applyMatches sixMs sixLines)[1]? = some ['X', 'b', '\n']
      ∧ (applyMatches sixMs sixLines)[0]? = sixLines[0]? := by
  have h := c6_apply_changes_exactly_matched_lines prependX sixLines sixMs (by decide)
  exact ⟨h.1, h.2.1 ⟨1, ['b', '\n'], ['X', 'b', '\n']⟩ (by decide),
    h.2.2 0 (by decide)⟩

/-- C7, counterexample: the code lower-cases the command before comparing, so the
input `Y` — which the claim's reading classifies as "any other input", hence a
re-prompt — is accepted immediately, while the decision procedure written from the
claim's words re-prompts on `Y` and then runs out of input. -/
theorem c7_counterexample :
    _review_match false ["Y"] = some (true, [])
      ∧ reviewDecisionSpec ["Y"] = none := by
  exact ⟨by decide, by decide⟩

/-- C7, amended: interactive review compares the lower-cased command: empty input
or a command lowering to `y` accepts, a command lowering to `n` rejects, and any
command lowering to none of these re-prompts (the loop continues on the remaining
input); the accepted matches of a file are returned in their original relative
order (a subsequence of the match list). -/
theorem c7_amended_review_semantics :
    (∀ s : List String, _review_match false ("" :: s) = some (true, s))
      ∧ (∀ s : List String, _review_match false ("y" :: s) = some (true, s))
      ∧ (∀ s : List String, _review_match false ("n" :: s) = some (false, s))
      ∧ (∀ (c : String) (s : List String), strLower c = "" →
          _review_match false (c :: s) = some (true, s))
      ∧ (∀ (c : String) (s : List String), strLower c = "y" →
          _review_match false (c :: s) = some (true, s))
      ∧ (∀ (c : String) (s : List String), strLower c = "n" →
          _review_match false (c :: s) = some (false, s))
      ∧ (∀ (c : String) (s : List String), strLower c ≠ "" → strLower c ≠ "y" →
          strLower c ≠ "n" → _review_match false (c :: s) = _review_match false s)
      ∧ (∀ (po : Bool) (ms : List Match) (s : List String) (acc : List Match)
          (s2 : List String), _review_matches po ms s = some (acc, s2) → acc.Sublist ms) := by
  refine ⟨fun s => rfl, fun s => rfl, fun s => rfl, ?_, ?_, ?_, ?_,
    fun po ms s acc s2 h => _review_matches_sublist po ms s acc s2 h⟩
  · intro c s h
    simp [_review_match, _review_loop, h]
  · intro c s h
    simp [_review_match, _review_loop, h]
  · intro c s h
    simp [_review_match, _review_loop, h]
  · intro c s h1 h2 h3
    simp [_review_match, _review_loop, h1, h2, h3]

/-- C7, witness: the unrecognized command `Q` re-prompts (review continues on the
rest of the input), and reviewing one match with input `q` then `n` accepts
nothing, the empty result being a subsequence of the match list. -/
theorem c7_witness :
    _review_match false ["Q", "y"] = _review_match false ["y"]
      ∧ ([] : List Match).Sublist [m0] :=
  ⟨c7_amended_review_semantics.2.2.2.2.2.2.1 "Q" ["y"] (by decide) (by decide) (by decide),
   c7_amended_review_semantics.2.2.2.2.2.2.2 false [m0] ["q", "n"] [] [] (by decide)⟩

/-- C8: a preview-mode run rejects every match of every file — every file keeps an
empty accepted list — consumes no input, opens no file for writing, and returns
the file system unchanged. -/
theorem c8_preview_rejects_all_writes_nothing (fs : FS) (files : List Path)
    (subst : List Char → List Char) (stream : List String) :
    main false true fs files subst stream
      = MainOutcome.ok fs ((find_matches fs files subst).map (fun pm => (pm.1, [])))
          [] none := by
  simp [main, review_matches_preview]

/-- C9: supplying both the interactive and the preview flag makes the run stop at
the usage check before anything else: for every file system, file list,
substitution and input, the outcome is the usage error — no file is collected,
matched, reviewed or written. -/
theorem c9_both_flags_usage_error (fs : FS) (files : List Path)
    (subst : List Char → List Char) (stream : List String) :
    main true true fs files subst stream = MainOutcome.usageError := rfl

/-- C10: a path that exists but is not a directory is returned as the one-element
file list, with no hidden-path filtering: `.env` passed directly is returned, even
though the very same name is filtered out during a directory walk. -/
theorem c10_single_file_returned_unfiltered :
    (∀ pathParts : List String, collect_files pathParts none = [pathParts])
      ∧ collect_files [".env"] none = [[".env"]]
      ∧ hiddenCode ".env" = true
      ∧ [".env"] ∉ _collect_files_from_dir [] (.dir (.cons ".env" .file .nil)) := by
  exact ⟨fun pathParts => rfl, rfl, by decide, by decide⟩

end Far
